import Mathlib

/-!
Shallow embedding of the core algorithms of the minio FS/erasure backend:
part-file name encoding, the multipart background-append scanner,
CompleteMultipartUpload part validation, Abort/PutObjectPart control flow,
the namespace-lock reference-counted map, and the HealFile write loop and
stripe arithmetic.  Strings are modelled as lists of characters; machine
integers as Int/Nat.
-/

/-! ## Part-file name encoding (fs-v1-multipart.go: encodePartFile / decodePartFile) -/

/-- Character-level model of Go `strings.Split(name, sep)` for a one-character
separator: splits on every occurrence, keeping empty components. -/
def splitOnChar (c : Char) : List Char → List (List Char)
  | [] => [[]]
  | x :: xs =>
    if x = c then [] :: splitOnChar c xs
    else
      match splitOnChar c xs with
      | [] => [[x]]
      | h :: t => (x :: h) :: t

/-- Numeric value of a decimal digit character, `none` for non-digits. -/
def digitVal (ch : Char) : Option Nat :=
  if '0' ≤ ch ∧ ch ≤ '9' then some (ch.toNat - '0'.toNat) else none

/-- Accumulating decimal parse of a digit string. -/
def parseDigitsGo (acc : Nat) : List Char → Option Nat
  | [] => some acc
  | ch :: rest =>
    match digitVal ch with
    | some d => parseDigitsGo (acc * 10 + d) rest
    | none => none

/-- Parse a non-empty all-digit string; `none` on empty or invalid input. -/
def parseDigits : List Char → Option Nat
  | [] => none
  | ch :: rest => parseDigitsGo 0 (ch :: rest)

/-- Go `int` (int64) bounds used by `strconv.Atoi`. -/
def maxInt64 : Nat := 9223372036854775807

/-- Model of Go `strconv.Atoi`: optional sign, decimal digits, int64 range. -/
def atoi (l : List Char) : Option Int :=
  match l with
  | [] => none
  | c :: rest =>
    if c = '-' then
      match parseDigits rest with
      | some n => if n ≤ maxInt64 + 1 then some (-(n : Int)) else none
      | none => none
    else if c = '+' then
      match parseDigits rest with
      | some n => if n ≤ maxInt64 then some (n : Int) else none
      | none => none
    else
      match parseDigits (c :: rest) with
      | some n => if n ≤ maxInt64 then some (n : Int) else none
      | none => none

/-- Decimal digit character for `d < 10`. -/
def digitChar (d : Nat) : Char :=
  match d with
  | 0 => '0' | 1 => '1' | 2 => '2' | 3 => '3' | 4 => '4'
  | 5 => '5' | 6 => '6' | 7 => '7' | 8 => '8' | _ => '9'

/-- Most-significant-first decimal digits of a natural number. -/
def natDigits (n : Nat) : List Char :=
  if n < 10 then [digitChar n]
  else natDigits (n / 10) ++ [digitChar (n % 10)]
  decreasing_by exact Nat.div_lt_self (by omega) (by omega)

/-- Left-pad a digit string with zeros to width 5: Go `"%.5d"` on the digits. -/
def leftPad5 (ds : List Char) : List Char :=
  List.replicate (5 - ds.length) '0' ++ ds

/-- Model of `encodePartFile(partNumber, etag)`: returns `partNumber.etag` with the
part number printed via `"%.5d"`. -/
def encodePartFile (partNumber : Int) (etag : List Char) : List Char :=
  (if partNumber < 0 then '-' :: leftPad5 (natDigits partNumber.natAbs)
   else leftPad5 (natDigits partNumber.natAbs)) ++ '.' :: etag

/-- Model of `decodePartFile(name)`: splits on `'.'`, requires exactly two components,
parses the first with `Atoi`, and returns `(partNumber, etag)`. -/
def decodePartFile (name : List Char) : Option (Int × List Char) :=
  match splitOnChar '.' name with
  | [a, b] =>
    match atoi a with
    | some n => some (n, b)
    | none => none
  | _ => none

/-- A name is well formed when it splits into exactly two components and the
first parses as a number. -/
def wellFormedPartName (name : List Char) : Prop :=
  ∃ a b n, splitOnChar '.' name = [a, b] ∧ atoi a = some n

/-! ## backgroundAppend (fs-v1-multipart.go lines 67-120) -/

/-- The metadata file name `fs.json` present in every upload-id directory. -/
def fsMetaJSONFile : List Char := ['f', 's', '.', 'j', 's', 'o', 'n']

/-- In-memory append record entry: the fields of `PartInfo` recorded by
`backgroundAppend` (`PartNumber` and `ETag`). -/
structure PartInfo where
  partNumber : Int
  etag : List Char
deriving DecidableEq, Repr

/-- Byte-wise lexicographic comparison of two strings, as used by Go
`sort.Strings`. -/
def lexLe : List Char → List Char → Bool
  | [], _ => true
  | _ :: _, [] => false
  | a :: as, b :: bs => if a < b then true else if b < a then false else lexLe as bs

/-- Insert into a `lexLe`-sorted list. -/
def insertSorted (x : List Char) : List (List Char) → List (List Char)
  | [] => [x]
  | y :: ys => if lexLe x y then x :: y :: ys else y :: insertSorted x ys

/-- Model of `sort.Strings(entries)`. -/
def sortStrings (l : List (List Char)) : List (List Char) :=
  l.foldr insertSorted []

/-- The scan loop of `backgroundAppend` over the (sorted) directory entries.
`appendOk` models the outcome of `mioutil.AppendFile` for a given part file;
a failed append aborts the scan without recording the part.  The record
`parts` is `file.parts`; `nextPartNumber` is always `len(file.parts)+1`. -/
def bgAppendScan (appendOk : List Char → Bool) :
    List (List Char) → List PartInfo → List PartInfo
  | [], parts => parts
  | entry :: rest, parts =>
    if entry = fsMetaJSONFile then bgAppendScan appendOk rest parts
    else
      match decodePartFile entry with
      | none => parts
      | some (partNumber, etag) =>
        let nextPartNumber : Int := (parts.length : Int) + 1
        if partNumber < nextPartNumber then bgAppendScan appendOk rest parts
        else if partNumber > nextPartNumber then parts
        else if appendOk entry then
          bgAppendScan appendOk rest (parts ++ [⟨nextPartNumber, etag⟩])
        else parts

/-- Model of `backgroundAppend`: sort the upload-id directory entries, then run the
sequential scan against the in-memory record. -/
def backgroundAppend (appendOk : List Char → Bool) (entries : List (List Char))
    (parts : List PartInfo) : List PartInfo :=
  bgAppendScan appendOk (sortStrings entries) parts

/-- The contiguous sequence of part numbers `1..m`. -/
def seq1 (m : Nat) : List Int :=
  (List.range m).map (fun (i : Nat) => (i : Int) + 1)

/-! ## CompleteMultipartUpload part validation (fs-v1-multipart.go lines 493-532) -/

/-- A claimed part in a CompleteMultipartUpload request. -/
structure CompletePart where
  partNumber : Int
  etag : List Char
deriving DecidableEq, Repr

/-- The errors the part-validation loop of `CompleteMultipartUpload` can
return.  A failed `fsStatFile` on a claimed part path becomes
`invalidPart`. -/
inductive CompleteError
  | invalidPart
  | partTooSmall (partNumber : Int) (partSize : Int) (partETag : List Char)
  | partsSizeUnequal
deriving DecidableEq, Repr

/-- Modelled from the spec: the S3 minimum part size enforced by
`isMinAllowedPartSize` (whose definition is outside these sources) is
5 MiB. -/
def globalMinPartSize : Int := 5 * 1024 * 1024

/-- Modelled from the spec: `isMinAllowedPartSize(size)` accepts sizes of at
least 5 MiB. -/
def isMinAllowedPartSize (size : Int) : Bool := globalMinPartSize ≤ size

/-- The `for i, part := range parts` validation loop of
`CompleteMultipartUpload`, with `partSize` threaded through (initially `-1`).
`stat part` is the on-disk size of `encodePartFile(part.PartNumber,
part.ETag)` in the upload-id directory, `none` when the stat fails.  The loop
breaks at the last part after the stat and the `partSize` update, so only
non-last parts are size-checked. -/
def validatePartsGo (stat : CompletePart → Option Int) :
    List CompletePart → Int → Option CompleteError
  | [], _ => none
  | part :: rest, partSize =>
    match stat part with
    | none => some CompleteError.invalidPart
    | some sz =>
      let partSize' := if partSize = -1 then sz else partSize
      if rest = [] then none
      else if ¬ isMinAllowedPartSize sz then
        some (CompleteError.partTooSmall part.partNumber sz part.etag)
      else if partSize' ≠ sz then some CompleteError.partsSizeUnequal
      else validatePartsGo stat rest partSize'

/-- Part validation of `CompleteMultipartUpload`: run the loop with
`partSize := -1`. -/
def validateParts (stat : CompletePart → Option Int) (parts : List CompletePart) :
    Option CompleteError :=
  validatePartsGo stat parts (-1)

/-- Predicate holding for every element except the last one. -/
def allButLast (P : α → Prop) : List α → Prop
  | [] => True
  | [_] => True
  | x :: y :: rest => P x ∧ allButLast P (y :: rest)

/-- Scanning the parts in request order, the first size-check violation is an
undersized non-last part: either the head (a non-last part) is undersized, or
the head has the running common size `s0` and the first violation is further
on. -/
def firstViolationTooSmall (size : CompletePart → Int) (s0 : Int) :
    List CompletePart → Prop
  | [] => False
  | [_] => False
  | x :: y :: rest =>
    size x < globalMinPartSize ∨
      (size x = s0 ∧ firstViolationTooSmall size s0 (y :: rest))

/-- Concrete sizes refuting C5 as stated: part 3 is non-last and undersized,
but an earlier oversized part makes the loop return `partsSizeUnequal`. -/
def sizeC5 : CompletePart → Int := fun p =>
  if p.partNumber = 1 then 5 * 1024 * 1024
  else if p.partNumber = 2 then 6 * 1024 * 1024
  else if p.partNumber = 3 then 4 * 1024 * 1024
  else 7

/-- The claimed parts for the C5 counterexample. -/
def partsC5 : List CompletePart :=
  [⟨1, ['a']⟩, ⟨2, ['b']⟩, ⟨3, ['c']⟩, ⟨4, ['d']⟩]

/-- Concrete sizes refuting C6 as stated: parts 1 and 2 are non-last with
different sizes, but part 2 is undersized so the loop returns
`partTooSmall`, not `partsSizeUnequal`. -/
def sizeC6 : CompletePart → Int := fun p =>
  if p.partNumber = 1 then 5 * 1024 * 1024
  else if p.partNumber = 2 then 5 * 1024 * 1024 - 1
  else 7

/-- The claimed parts for the C6 counterexample. -/
def partsC6 : List CompletePart := [⟨1, ['a']⟩, ⟨2, ['b']⟩, ⟨3, ['c']⟩]

/-- Equal sizes (6 MiB) used by the C6 witness. -/
def sizeW6 : CompletePart → Int := fun p =>
  if p.partNumber = 2 then 6 * 1024 * 1024 else 5 * 1024 * 1024

/-! ## AbortMultipartUpload and PutObjectPart (fs-v1-multipart.go lines 280-352, 637-664) -/

/-- The errors relevant to the Abort/PutObjectPart control flow. -/
inductive ObjErr
  | bucketNotFound
  | invalidUploadID (uploadID : String)
  | invalidArgument
deriving DecidableEq, Repr

/-- The multipart-relevant filesystem and in-memory state of `FSObjects`:
existing buckets, upload-id directories whose `fs.json` metadata file exists
(keyed by `(bucket, object, uploadID)`), the part files inside those
directories (keyed by upload key, part number and etag), and the upload ids
present in `fs.appendFileMap`. -/
structure MultipartFS where
  buckets : List String
  uploads : List (String × String × String)
  partFiles : List ((String × String × String) × Int × String)
  appendMap : List String
deriving DecidableEq, Repr

/-- Model of `AbortMultipartUpload(bucket, object, uploadID)`: stat the bucket, drop
the append record, stat the upload's `fs.json` (missing means
`InvalidUploadID`), then recursively remove the upload-id directory.  The
removal of a directory is modelled by filtering out the key. -/
def AbortMultipartUpload (fs : MultipartFS) (bucket object uploadID : String) :
    MultipartFS × Option ObjErr :=
  if bucket ∈ fs.buckets then
    let fs1 := { fs with appendMap := fs.appendMap.filter (fun u => decide (u ≠ uploadID)) }
    if (bucket, object, uploadID) ∈ fs1.uploads then
      ({ fs1 with
          uploads := fs1.uploads.filter (fun k => decide (k ≠ (bucket, object, uploadID))),
          partFiles := fs1.partFiles.filter (fun pf => decide (pf.1 ≠ (bucket, object, uploadID))) },
        none)
    else (fs1, some (ObjErr.invalidUploadID uploadID))
  else (fs, some ObjErr.bucketNotFound)

/-- Model of `PutObjectPart(bucket, object, uploadID, partID, data)`: stat the bucket,
reject a negative data size, stat the upload's `fs.json` (missing means
`InvalidUploadID` before anything is written), then stream to a tmp file and
rename it to `encodePartFile(partID, etag)` inside the upload-id directory
(replacing a file of the same name). -/
def PutObjectPart (fs : MultipartFS) (bucket object uploadID : String)
    (partID : Int) (dataSize : Int) (etag : String) : MultipartFS × Option ObjErr :=
  if bucket ∈ fs.buckets then
    if dataSize < 0 then (fs, some ObjErr.invalidArgument)
    else if (bucket, object, uploadID) ∈ fs.uploads then
      ({ fs with partFiles :=
          ((bucket, object, uploadID), partID, etag) ::
            fs.partFiles.filter (fun pf => decide (pf ≠ ((bucket, object, uploadID), partID, etag))) },
        none)
    else (fs, some (ObjErr.invalidUploadID uploadID))
  else (fs, some ObjErr.bucketNotFound)

/-- The state used by the C1 counterexample: one bucket, one upload. -/
def fsC1 : MultipartFS :=
  { buckets := ["b"], uploads := [("b", "o", "u")], partFiles := [], appendMap := ["u"] }

/-- The state used by the C7 witness: a bucket with no uploads. -/
def fsC7 : MultipartFS :=
  { buckets := ["b"], uploads := [], partFiles := [], appendMap := [] }

/-! ## Namespace lock map (cmd/namespace-lock.go lines 145-304) -/

/-- The key of the namespace lock map: a `(volume, path)` pair. -/
structure nsParam where
  volume : String
  path : String
deriving DecidableEq, Repr

/-- Reference count of a parameter in the lock map (`nsLock.ref`): the map is
an association list from `nsParam` to the counter. -/
def findRef : List (nsParam × Nat) → nsParam → Option Nat
  | [], _ => none
  | (q, r) :: rest, p => if q = p then some r else findRef rest p

/-- Model of `delete(n.lockMap, param)`: remove the entry. -/
def removeParam (m : List (nsParam × Nat)) (p : nsParam) : List (nsParam × Nat) :=
  m.filter (fun e => decide (e.1 ≠ p))

/-- The acquire-side map mutation of `nsLockMap.lock` (lines 150-163): look
up or create the entry, then `nsLk.ref++`.  The blocking RW acquire happens
after the map mutex is released and does not touch the map. -/
def lockIncr (m : List (nsParam × Nat)) (p : nsParam) : List (nsParam × Nat) :=
  match findRef m p with
  | none => (p, 1) :: m
  | some r => (p, r + 1) :: removeParam m p

/-- The timed-out-acquire rollback of `nsLockMap.lock` (lines 181-199):
`nsLk.ref--`, and `delete` the entry when the counter reaches zero.  (Go's
`uint` would wrap on a decrement from zero; that state is unreachable since
the rollback always follows this caller's own increment.) -/
def lockTimeoutDecr (m : List (nsParam × Nat)) (p : nsParam) : List (nsParam × Nat) :=
  match findRef m p with
  | none => m
  | some r => if r - 1 = 0 then removeParam m p else (p, r - 1) :: removeParam m p

/-- Model of `nsLockMap.unlock` (lines 210-241): if the entry exists, release the RW
primitive, log when the counter is already zero, decrement only when it is
nonzero, and `delete` the entry when the counter is (or has become) zero. -/
def unlockOp (m : List (nsParam × Nat)) (p : nsParam) : List (nsParam × Nat) :=
  match findRef m p with
  | none => m
  | some r =>
    let r' := if r ≠ 0 then r - 1 else r
    if r' = 0 then removeParam m p else (p, r') :: removeParam m p

/-- Model of `nsLockMap.ForceUnlock` (lines 273-304): remove the entry from the map
unconditionally (the distributed broadcast does not touch the local map). -/
def forceUnlockOp (m : List (nsParam × Nat)) (p : nsParam) : List (nsParam × Nat) :=
  removeParam m p

/-- The map mutations of the namespace lock manager. -/
inductive NSLockOp
  | acquire (p : nsParam)
  | timeout (p : nsParam)
  | release (p : nsParam)
  | force (p : nsParam)

/-- Apply one mutation. -/
def applyOp (m : List (nsParam × Nat)) : NSLockOp → List (nsParam × Nat)
  | NSLockOp.acquire p => lockIncr m p
  | NSLockOp.timeout p => lockTimeoutDecr m p
  | NSLockOp.release p => unlockOp m p
  | NSLockOp.force p => forceUnlockOp m p

/-- Run the manager from the empty map through a sequence of mutations. -/
def applyOps (ops : List NSLockOp) : List (nsParam × Nat) :=
  ops.foldl applyOp []

/-- Every entry of the map has a positive reference count. -/
def goodMap (m : List (nsParam × Nat)) : Prop :=
  ∀ e ∈ m, 0 < e.2

/-! ## HealFile write loop (erasure-healfile.go lines 96-175) -/

/-- State of `writeErrors` after the first `b` blocks: disk `i` has accumulated a
write error when some earlier block's append to it failed while it is a
stale disk.  (`stale i` is `staleDisks[i] != nil`; `outcome b i` is whether
`disk.AppendFile` succeeds for block `b` on disk `i`.  A disk is only
attempted while error-free, and the first failure makes it errored for
good.) -/
def erroredAfter (stale : Nat → Bool) (outcome : Nat → Nat → Bool) : Nat → Nat → Bool
  | 0, _ => false
  | b + 1, i => erroredAfter stale outcome b i || (stale i && !outcome b i)

/-- Value of `writeSucceeded` for block `b`: some stale, so-far error-free disk
accepts the append. -/
def healWriteSucceeded (stale : Nat → Bool) (outcome : Nat → Nat → Bool)
    (n b : Nat) (errored : Nat → Bool) : Bool :=
  (List.range n).any fun i => stale i && !errored i && outcome b i

/-- The block loop of `HealFile`: for each block, append the chunk to every
stale disk that has no accumulated write error, record new write errors, and
quit with an error when no stale disk accepted the block. -/
def healLoop (stale : Nat → Bool) (outcome : Nat → Nat → Bool) (n : Nat) :
    Nat → Nat → (Nat → Bool) → Option (Nat → Bool)
  | 0, _, errored => some errored
  | k + 1, b, errored =>
    if healWriteSucceeded stale outcome n b errored then
      healLoop stale outcome n k (b + 1)
        (fun i => errored i || (stale i && !outcome b i))
    else none

/-- Model of `HealFile` over `n` disks and `numBlocks` blocks, with reads, decoding
and hashing abstracted away (checksum contents are reduced to presence):
returns `none` on error, and on success the positions of `f.Checksums` that
receive a fresh bitrot checksum — the stale disks without accumulated write
errors. -/
def HealFile (stale : Nat → Bool) (outcome : Nat → Nat → Bool)
    (n numBlocks : Nat) : Option (List Bool) :=
  (healLoop stale outcome n numBlocks 0 (fun _ => false)).map fun errored =>
    (List.range n).map fun i => stale i && !errored i

/-! ## HealFile stripe arithmetic (erasure-healfile.go lines 76-89, 109-134) -/

/-- Modelled from the spec: `ceilFrac(numerator, denominator)` is the ceiling
of the fraction (the helper itself lives outside these sources); defined for
the nonnegative numerators and positive denominators `HealFile` uses. -/
def ceilFrac (numerator denominator : Int) : Int :=
  if denominator ≤ 0 then 0 else (numerator + denominator - 1) / denominator

/-- Model of `chunksize := ceilFrac(blocksize, int64(s.dataBlocks))`. -/
def chunksize (blocksize dataBlocks : Int) : Int := ceilFrac blocksize dataBlocks

/-- Model of `numBlocks := ceilFrac(size, blocksize)`. -/
def numBlocks (size blocksize : Int) : Int := ceilFrac size blocksize

/-- Model of `lastChunkSize`: recomputed from the residual when `size` is not a
multiple of `blocksize`, otherwise equal to `chunksize`. -/
def lastChunkSize (size blocksize dataBlocks : Int) : Int :=
  if size % blocksize ≠ 0 then ceilFrac (size % blocksize) dataBlocks
  else chunksize blocksize dataBlocks

/-- Model of `readLen := chunksize*(numBlocks-1); readLen += lastChunkSize`. -/
def readLen (size blocksize dataBlocks : Int) : Int :=
  chunksize blocksize dataBlocks * (numBlocks size blocksize - 1) +
    lastChunkSize size blocksize dataBlocks

/-- Value of `csize` for block `blockNumber`: `chunksize`, except `lastChunkSize` on
the final loop iteration. -/
def csize (size blocksize dataBlocks : Int) (blockNumber : Int) : Int :=
  if blockNumber = numBlocks size blocksize - 1 then
    lastChunkSize size blocksize dataBlocks
  else chunksize blocksize dataBlocks

/-! ## Theorems -/

example : decodePartFile ['a', '.', 'b', '.', 'c'] = none := by decide
example : decodePartFile ['x', 'y'] = none := by decide
example : parseDigits ['0', '0', '0', '4', '2'] = some 42 := by decide

lemma digitVal_digitChar {d : Nat} (h : d < 10) : digitVal (digitChar d) = some d := by
  interval_cases d <;> decide

lemma digitChar_ne_dot (d : Nat) : digitChar d ≠ '.' := by
  unfold digitChar; split <;> decide

lemma digitChar_ne_minus (d : Nat) : digitChar d ≠ '-' := by
  unfold digitChar; split <;> decide

lemma digitChar_ne_plus (d : Nat) : digitChar d ≠ '+' := by
  unfold digitChar; split <;> decide

lemma parseDigitsGo_cons_digit {ch : Char} {d : Nat} (h : digitVal ch = some d)
    (a : Nat) (rest : List Char) :
    parseDigitsGo a (ch :: rest) = parseDigitsGo (a * 10 + d) rest := by
  simp [parseDigitsGo, h]

lemma parseDigitsGo_append (l1 l2 : List Char) (a : Nat) :
    parseDigitsGo a (l1 ++ l2) =
      match parseDigitsGo a l1 with
      | some v => parseDigitsGo v l2
      | none => none := by
  induction l1 generalizing a with
  | nil => simp [parseDigitsGo]
  | cons ch rest ih =>
    simp only [List.cons_append, parseDigitsGo]
    cases digitVal ch with
    | none => simp
    | some d => simpa using ih (a * 10 + d)

lemma parseDigitsGo_append_some {l1 : List Char} {a v : Nat}
    (h : parseDigitsGo a l1 = some v) (l2 : List Char) :
    parseDigitsGo a (l1 ++ l2) = parseDigitsGo v l2 := by
  rw [parseDigitsGo_append, h]

lemma natDigits_ne_nil (n : Nat) : natDigits n ≠ [] := by
  rw [natDigits]
  split
  · simp
  · simp

lemma natDigits_digits (n : Nat) : ∀ ch ∈ natDigits n, ∃ d, d < 10 ∧ ch = digitChar d := by
  induction n using Nat.strong_induction_on with
  | _ n ih =>
    rw [natDigits]
    split
    · rename_i h
      intro ch hch
      simp only [List.mem_singleton] at hch
      exact ⟨n, h, hch⟩
    · rename_i h
      intro ch hch
      rw [List.mem_append] at hch
      rcases hch with hch | hch
      · exact ih (n / 10) (Nat.div_lt_self (by omega) (by omega)) ch hch
      · simp only [List.mem_singleton] at hch
        exact ⟨n % 10, Nat.mod_lt _ (by omega), hch⟩

lemma parseDigitsGo_natDigits (n : Nat) :
    ∀ a, parseDigitsGo a (natDigits n) = some (a * 10 ^ (natDigits n).length + n) := by
  induction n using Nat.strong_induction_on with
  | _ n ih =>
    intro a
    rw [natDigits]
    split
    · rename_i h
      rw [parseDigitsGo_cons_digit (digitVal_digitChar h) a []]
      simp [parseDigitsGo]
    · rename_i h
      rw [parseDigitsGo_append_some
        (ih (n / 10) (Nat.div_lt_self (by omega) (by omega)) a)]
      have hd : digitVal (digitChar (n % 10)) = some (n % 10) :=
        digitVal_digitChar (Nat.mod_lt n (by omega))
      rw [parseDigitsGo_cons_digit hd _ []]
      simp only [parseDigitsGo, List.length_append, List.length_singleton,
        Option.some.injEq]
      rw [pow_succ, ← Nat.mul_assoc]
      omega

lemma parseDigitsGo_replicate_zero (k : Nat) (a : Nat) (ds : List Char) :
    parseDigitsGo a (List.replicate k '0' ++ ds) = parseDigitsGo (a * 10 ^ k) ds := by
  induction k generalizing a with
  | zero => simp
  | succ k ih =>
    rw [List.replicate_succ, List.cons_append,
      parseDigitsGo_cons_digit (show digitVal '0' = some 0 by decide) a
        (List.replicate k '0' ++ ds), ih]
    congr 1
    ring

lemma leftPad5_digits (n : Nat) :
    ∀ ch ∈ leftPad5 (natDigits n), ∃ d, d < 10 ∧ ch = digitChar d := by
  intro ch hch
  rw [leftPad5, List.mem_append] at hch
  rcases hch with hch | hch
  · rw [List.mem_replicate] at hch
    exact ⟨0, by omega, hch.2⟩
  · exact natDigits_digits n ch hch

lemma leftPad5_ne_nil (n : Nat) : leftPad5 (natDigits n) ≠ [] := by
  rw [leftPad5]
  intro h
  rw [List.append_eq_nil] at h
  exact natDigits_ne_nil n h.2

lemma parseDigits_leftPad5 (n : Nat) : parseDigits (leftPad5 (natDigits n)) = some n := by
  have hne := leftPad5_ne_nil n
  obtain ⟨c, rest, hcr⟩ : ∃ c rest, leftPad5 (natDigits n) = c :: rest := by
    cases h : leftPad5 (natDigits n) with
    | nil => exact absurd h hne
    | cons c rest => exact ⟨c, rest, rfl⟩
  rw [hcr, parseDigits, ← hcr, leftPad5, parseDigitsGo_replicate_zero,
    parseDigitsGo_natDigits]
  simp

lemma atoi_leftPad5 {n : Nat} (hn : n ≤ maxInt64) :
    atoi (leftPad5 (natDigits n)) = some (n : Int) := by
  have hne := leftPad5_ne_nil n
  obtain ⟨c, rest, hcr⟩ : ∃ c rest, leftPad5 (natDigits n) = c :: rest := by
    cases h : leftPad5 (natDigits n) with
    | nil => exact absurd h hne
    | cons c rest => exact ⟨c, rest, rfl⟩
  obtain ⟨d, hd, hcd⟩ := leftPad5_digits n c (by rw [hcr]; exact List.mem_cons_self _ _)
  rw [hcr, atoi]
  rw [if_neg (by rw [hcd]; exact digitChar_ne_minus d),
    if_neg (by rw [hcd]; exact digitChar_ne_plus d)]
  rw [← hcr, parseDigits_leftPad5]
  simp [hn]

lemma splitOnChar_not_mem {c : Char} {l : List Char} (h : ∀ x ∈ l, x ≠ c) :
    splitOnChar c l = [l] := by
  induction l with
  | nil => rfl
  | cons x xs ih =>
    rw [splitOnChar, if_neg (h x (List.mem_cons_self _ _)),
      ih (fun y hy => h y (List.mem_cons_of_mem _ hy))]

lemma splitOnChar_append {c : Char} {a : List Char} (b : List Char)
    (h : ∀ x ∈ a, x ≠ c) :
    splitOnChar c (a ++ c :: b) = a :: splitOnChar c b := by
  induction a with
  | nil => rw [List.nil_append, splitOnChar, if_pos rfl]
  | cons x xs ih =>
    rw [List.cons_append, splitOnChar, if_neg (h x (List.mem_cons_self _ _)),
      ih (fun y hy => h y (List.mem_cons_of_mem _ hy))]

lemma decodePartFile_eq2 {name a b : List Char} (h : splitOnChar '.' name = [a, b]) :
    decodePartFile name =
      match atoi a with
      | some v => some (v, b)
      | none => none := by
  rw [decodePartFile, h]

/-- C10. Part-file name encoding round-trips: for every part number between
0 and 99999 and every non-empty etag containing no `'.'`,
`decodePartFile (encodePartFile partNumber etag)` returns exactly
`(partNumber, etag)`; and `decodePartFile` returns an error for any name that
does not split into exactly two `'.'`-separated components with a numeric
first component. -/
theorem decodePartFile_encodePartFile_roundtrip :
    (∀ (n : Nat) (etag : List Char), n ≤ 99999 → etag ≠ [] → '.' ∉ etag →
      decodePartFile (encodePartFile (n : Int) etag) = some ((n : Int), etag))
    ∧ (∀ name : List Char, ¬ wellFormedPartName name → decodePartFile name = none) := by
  constructor
  · intro n etag hn _ hdot
    have hnneg : ¬ ((n : Int) < 0) := by omega
    rw [encodePartFile, if_neg hnneg]
    have habs : ((n : Int)).natAbs = n := Int.natAbs_ofNat n
    rw [habs]
    have hsplit : splitOnChar '.' (leftPad5 (natDigits n) ++ '.' :: etag) =
        [leftPad5 (natDigits n), etag] := by
      rw [splitOnChar_append etag ?nodot,
        splitOnChar_not_mem (fun x hx hxc => hdot (by rw [← hxc]; exact hx))]
      case nodot =>
        intro x hx
        obtain ⟨d, _, hxd⟩ := leftPad5_digits n x hx
        rw [hxd]; exact digitChar_ne_dot d
    rw [decodePartFile_eq2 hsplit, atoi_leftPad5 (by rw [maxInt64]; omega)]
  · intro name hwf
    cases hs : splitOnChar '.' name with
    | nil => rw [decodePartFile, hs]
    | cons a t =>
      cases t with
      | nil => rw [decodePartFile, hs]
      | cons b t2 =>
        cases t2 with
        | nil =>
          rw [decodePartFile_eq2 hs]
          cases ha : atoi a with
          | none => rfl
          | some v => exact absurd ⟨a, b, v, hs, ha⟩ hwf
        | cons x t3 => rw [decodePartFile, hs]

/-- Concrete instance of the C10 theorem, both directions evaluated. -/
theorem decodePartFile_encodePartFile_roundtrip_witness :
    decodePartFile (encodePartFile ((42 : Nat) : Int) ['e', 't']) = some (42, ['e', 't'])
    ∧ decodePartFile ['x', 'y'] = none := by
  constructor
  · exact decodePartFile_encodePartFile_roundtrip.1 42 ['e', 't']
      (by decide) (by decide) (by decide)
  · refine decodePartFile_encodePartFile_roundtrip.2 ['x', 'y'] ?_
    rintro ⟨a, b, v, h1, h2⟩
    rw [show splitOnChar '.' ['x', 'y'] = [['x', 'y']] from rfl] at h1
    simp at h1

lemma mem_insertSorted {x y : List Char} {l : List (List Char)}
    (h : x ∈ insertSorted y l) : x = y ∨ x ∈ l := by
  induction l with
  | nil =>
    rw [insertSorted] at h
    simp only [List.mem_singleton] at h
    exact Or.inl h
  | cons z zs ih =>
    rw [insertSorted] at h
    by_cases hle : lexLe y z
    · rw [if_pos hle] at h
      rcases List.mem_cons.1 h with h | h
      · exact Or.inl h
      · exact Or.inr h
    · rw [if_neg hle] at h
      rcases List.mem_cons.1 h with h | h
      · exact Or.inr (h ▸ List.mem_cons_self _ _)
      · rcases ih h with h | h
        · exact Or.inl h
        · exact Or.inr (List.mem_cons_of_mem _ h)

lemma mem_of_mem_sortStrings {x : List Char} {l : List (List Char)}
    (h : x ∈ sortStrings l) : x ∈ l := by
  induction l with
  | nil => exact absurd h (by simp [sortStrings])
  | cons a t ih =>
    rcases mem_insertSorted h with h | h
    · exact h ▸ List.mem_cons_self _ _
    · exact List.mem_cons_of_mem _ (ih h)

lemma seq1_length (m : Nat) : (seq1 m).length = m := by
  rw [seq1, List.length_map, List.length_range]

lemma seq1_succ (m : Nat) : seq1 (m + 1) = seq1 m ++ [(m : Int) + 1] := by
  simp [seq1, List.range_succ]

example : seq1 3 = [1, 2, 3] := by decide

lemma bgAppendScan_invariant (appendOk : List Char → Bool) :
    ∀ (es : List (List Char)) (parts : List PartInfo) (m : Nat),
      parts.map PartInfo.partNumber = seq1 m →
      ∃ k, m ≤ k ∧
        (bgAppendScan appendOk es parts).map PartInfo.partNumber = seq1 k ∧
        ∀ j, m < j → j ≤ k →
          ∃ e ∈ es, ∃ etag, decodePartFile e = some ((j : Int), etag) := by
  intro es
  induction es with
  | nil =>
    intro parts m h
    exact ⟨m, le_refl m, h, fun j h1 h2 => absurd (lt_of_lt_of_le h1 h2) (lt_irrefl m)⟩
  | cons e rest ih =>
    intro parts m h
    have hlen : parts.length = m := by
      have := congrArg List.length h
      simpa [seq1_length] using this
    by_cases he : e = fsMetaJSONFile
    · rw [bgAppendScan, if_pos he]
      obtain ⟨k, hk1, hk2, hk3⟩ := ih parts m h
      exact ⟨k, hk1, hk2, fun j h1 h2 =>
        (hk3 j h1 h2).elim fun x hx => ⟨x, List.mem_cons_of_mem _ hx.1, hx.2⟩⟩
    · rw [bgAppendScan, if_neg he]
      split
      · exact ⟨m, le_refl m, h, fun j h1 h2 => absurd (lt_of_lt_of_le h1 h2) (lt_irrefl m)⟩
      · rename_i partNumber etag hdec
        by_cases hlt : partNumber < (parts.length : Int) + 1
        · rw [if_pos hlt]
          obtain ⟨k, hk1, hk2, hk3⟩ := ih parts m h
          exact ⟨k, hk1, hk2, fun j h1 h2 =>
            (hk3 j h1 h2).elim fun x hx => ⟨x, List.mem_cons_of_mem _ hx.1, hx.2⟩⟩
        · rw [if_neg hlt]
          by_cases hgt : partNumber > (parts.length : Int) + 1
          · rw [if_pos hgt]
            exact ⟨m, le_refl m, h,
              fun j h1 h2 => absurd (lt_of_lt_of_le h1 h2) (lt_irrefl m)⟩
          · rw [if_neg hgt]
            have heq : partNumber = (m : Int) + 1 := by
              rw [← hlen]; omega
            by_cases hap : appendOk e
            · rw [if_pos hap]
              have h' : (parts ++ [PartInfo.mk ((parts.length : Int) + 1) etag]).map
                  PartInfo.partNumber = seq1 (m + 1) := by
                rw [List.map_append, h, seq1_succ, hlen]
                rfl
              obtain ⟨k, hk1, hk2, hk3⟩ := ih _ (m + 1) h'
              refine ⟨k, by omega, hk2, fun j h1 h2 => ?_⟩
              by_cases hj : j = m + 1
              · refine ⟨e, List.mem_cons_self _ _, etag, ?_⟩
                rw [hdec, heq, hj]
                push_cast
                rfl
              · obtain ⟨x, hx1, hx2⟩ := hk3 j (by omega) h2
                exact ⟨x, List.mem_cons_of_mem _ hx1, hx2⟩
            · rw [if_neg hap]
              exact ⟨m, le_refl m, h,
                fun j h1 h2 => absurd (lt_of_lt_of_le h1 h2) (lt_irrefl m)⟩

/-- C4. After every run of `backgroundAppend` on a record holding the
contiguous parts `1..m`, the record holds exactly the contiguous parts `1..k`
for some `k ≥ m`, and every newly recorded part number has a matching part
file among the directory entries: the record never leads the contiguous
prefix present on disk. -/
theorem backgroundAppend_contiguous (appendOk : List Char → Bool)
    (entries : List (List Char)) (parts : List PartInfo) (m : Nat)
    (h : parts.map PartInfo.partNumber = seq1 m) :
    ∃ k, m ≤ k ∧
      (backgroundAppend appendOk entries parts).map PartInfo.partNumber = seq1 k ∧
      ∀ j, m < j → j ≤ k →
        ∃ e ∈ entries, ∃ etag, decodePartFile e = some ((j : Int), etag) := by
  obtain ⟨k, hk1, hk2, hk3⟩ := bgAppendScan_invariant appendOk (sortStrings entries) parts m h
  refine ⟨k, hk1, hk2, fun j h1 h2 => ?_⟩
  obtain ⟨e, he, hdec⟩ := hk3 j h1 h2
  exact ⟨e, mem_of_mem_sortStrings he, hdec⟩

/-- Concrete run of the C4 theorem: two sequential parts on disk, an empty
starting record. -/
theorem backgroundAppend_contiguous_witness :
    ∃ k, 0 ≤ k ∧
      (backgroundAppend (fun _ => true)
        [['0', '0', '0', '0', '1', '.', 'a'], ['0', '0', '0', '0', '2', '.', 'b']]
        []).map PartInfo.partNumber = seq1 k ∧
      ∀ j, 0 < j → j ≤ k →
        ∃ e ∈ [['0', '0', '0', '0', '1', '.', 'a'],
          ['0', '0', '0', '0', '2', '.', 'b']],
          ∃ etag, decodePartFile e = some ((j : Int), etag) :=
  backgroundAppend_contiguous (fun _ => true) _ [] 0 rfl

lemma validatePartsGo_ok (size : CompletePart → Int) :
    ∀ (l : List CompletePart) (s0 : Int),
      allButLast (fun p => globalMinPartSize ≤ size p ∧ size p = s0) l →
      validatePartsGo (fun p => some (size p)) l s0 = none := by
  intro l
  induction l with
  | nil => intro s0 _; rfl
  | cons x rest ih =>
    intro s0 hl
    cases rest with
    | nil => rfl
    | cons y rest2 =>
      obtain ⟨⟨hmin, heq⟩, hrest⟩ := hl
      have hps : (if s0 = -1 then size x else s0) = s0 := by
        rw [← heq, ite_self]
      rw [validatePartsGo]
      simp only [hps]
      rw [if_neg (by simp : ¬ (y :: rest2 = [])),
        if_neg (not_not_intro (by simpa [isMinAllowedPartSize] using hmin)),
        if_neg (not_not_intro heq.symm)]
      exact ih s0 hrest

lemma validatePartsGo_unequal (size : CompletePart → Int) :
    ∀ (l : List CompletePart) (s0 : Int), s0 ≠ -1 →
      allButLast (fun p => globalMinPartSize ≤ size p) l →
      ¬ allButLast (fun p => size p = s0) l →
      validatePartsGo (fun p => some (size p)) l s0 =
        some CompleteError.partsSizeUnequal := by
  intro l
  induction l with
  | nil => intro s0 _ _ hneq; exact absurd trivial hneq
  | cons x rest ih =>
    intro s0 hs0 hmin hneq
    cases rest with
    | nil => exact absurd trivial hneq
    | cons y rest2 =>
      obtain ⟨hminx, hminrest⟩ := hmin
      have hps : (if s0 = -1 then size x else s0) = s0 := if_neg hs0
      rw [validatePartsGo]
      simp only [hps]
      rw [if_neg (by simp : ¬ (y :: rest2 = [])),
        if_neg (not_not_intro (by simpa [isMinAllowedPartSize] using hminx))]
      by_cases hxe : size x = s0
      · rw [if_neg (not_not_intro hxe.symm)]
        exact ih s0 hs0 hminrest (fun hr => hneq ⟨hxe, hr⟩)
      · rw [if_pos (fun hc => hxe hc.symm)]

lemma validatePartsGo_tooSmall (size : CompletePart → Int) :
    ∀ (l : List CompletePart) (s0 : Int),
      firstViolationTooSmall size s0 l →
      ∃ n sz e, validatePartsGo (fun p => some (size p)) l s0 =
          some (CompleteError.partTooSmall n sz e) ∧ sz < globalMinPartSize := by
  intro l
  induction l with
  | nil => intro s0 hv; exact absurd hv (by rw [firstViolationTooSmall]; simp)
  | cons x rest ih =>
    intro s0 hv
    cases rest with
    | nil => exact absurd hv (by rw [firstViolationTooSmall]; simp)
    | cons y rest2 =>
      by_cases hsm : size x < globalMinPartSize
      · refine ⟨x.partNumber, size x, x.etag, ?_, hsm⟩
        rw [validatePartsGo]
        simp only []
        rw [if_neg (by simp : ¬ (y :: rest2 = [])),
          if_pos (by simp [isMinAllowedPartSize]; omega)]
      · rcases hv with hv | ⟨heq, hrec⟩
        · exact absurd hv hsm
        · have hps : (if s0 = -1 then size x else s0) = s0 := by
            rw [← heq, ite_self]
          rw [validatePartsGo]
          simp only [hps]
          rw [if_neg (by simp : ¬ (y :: rest2 = [])),
            if_neg (not_not_intro (by simp [isMinAllowedPartSize]; omega)),
            if_neg (not_not_intro heq.symm)]
          exact ih s0 hrec

/-- C5 (counterexample to the claim as stated). A claimed part other than
the last (part 3, 4 MiB) has on-disk size below 5 MiB, yet
`CompleteMultipartUpload` rejects with `PartsSizeUnequal` (raised at the
earlier 6 MiB part), not with `PartTooSmall`. -/
theorem completeMultipart_partTooSmall_counterexample :
    sizeC5 ⟨3, ['c']⟩ < globalMinPartSize ∧
    validateParts (fun p => some (sizeC5 p)) partsC5 =
      some CompleteError.partsSizeUnequal := by
  decide

/-- C5 (amended). The loop checks parts in request order, minimum-size
check before equal-size check.  `CompleteMultipartUpload` rejects with
`PartTooSmall` whenever the first check violation in that order is an
undersized non-last part; the last part is exempt from the check; a
single-part upload gets no size check; and when every non-last part has the
first part's size and meets the minimum, no size error is raised at all. -/
theorem completeMultipart_partTooSmall_amended (size : CompletePart → Int) :
    (∀ (p0 : CompletePart) (parts : List CompletePart),
      firstViolationTooSmall size (size p0) (p0 :: parts) →
      ∃ n sz e, validateParts (fun p => some (size p)) (p0 :: parts) =
          some (CompleteError.partTooSmall n sz e) ∧ sz < globalMinPartSize)
    ∧ (∀ p0 : CompletePart, validateParts (fun p => some (size p)) [p0] = none)
    ∧ (∀ (p0 : CompletePart) (parts : List CompletePart),
      allButLast (fun p => globalMinPartSize ≤ size p ∧ size p = size p0)
        (p0 :: parts) →
      validateParts (fun p => some (size p)) (p0 :: parts) = none) := by
  refine ⟨?_, ?_, ?_⟩
  · intro p0 parts hv
    cases parts with
    | nil => exact absurd hv (by rw [firstViolationTooSmall]; simp)
    | cons y rest =>
      by_cases hsm : size p0 < globalMinPartSize
      · refine ⟨p0.partNumber, size p0, p0.etag, ?_, hsm⟩
        rw [validateParts, validatePartsGo]
        simp only []
        rw [if_neg (by simp : ¬ (y :: rest = [])),
          if_pos (by simp [isMinAllowedPartSize]; omega)]
      · rcases hv with hv | ⟨_, hrec⟩
        · exact absurd hv hsm
        · rw [validateParts, validatePartsGo]
          simp only [if_true]
          rw [if_neg (by simp : ¬ (y :: rest = [])),
            if_neg (not_not_intro (by simp [isMinAllowedPartSize]; omega)),
            if_neg (not_not_intro rfl)]
          exact validatePartsGo_tooSmall size (y :: rest) (size p0) hrec
  · intro p0; rfl
  · intro p0 parts hl
    cases parts with
    | nil => rfl
    | cons y rest =>
      obtain ⟨⟨hmin0, _⟩, hrest⟩ := hl
      rw [validateParts, validatePartsGo]
      simp only [if_true]
      rw [if_neg (by simp : ¬ (y :: rest = [])),
        if_neg (not_not_intro (by simpa [isMinAllowedPartSize] using hmin0)),
        if_neg (not_not_intro rfl)]
      exact validatePartsGo_ok size (y :: rest) (size p0) hrest

/-- Concrete consequence of the amended C5: all parts undersized, the head
violates first, so the result is a `PartTooSmall` error. -/
theorem completeMultipart_partTooSmall_amended_witness :
    ∃ n sz e, validateParts (fun _ => some 0) [⟨1, ['a']⟩, ⟨2, ['b']⟩] =
        some (CompleteError.partTooSmall n sz e) ∧ sz < globalMinPartSize :=
  (completeMultipart_partTooSmall_amended (fun _ => 0)).1 ⟨1, ['a']⟩ [⟨2, ['b']⟩]
    (Or.inl (by decide))

/-- C6 (counterexample to the claim as stated). Parts 1 and 2 are both
non-last and have different on-disk sizes, yet `CompleteMultipartUpload`
rejects with `PartTooSmall` (part 2 is also undersized, and that check runs
first), not with `PartsSizeUnequal`. -/
theorem completeMultipart_partsSizeUnequal_counterexample :
    sizeC6 ⟨1, ['a']⟩ ≠ sizeC6 ⟨2, ['b']⟩ ∧
    validateParts (fun p => some (sizeC6 p)) partsC6 =
      some (CompleteError.partTooSmall 2 (5 * 1024 * 1024 - 1) ['b']) := by
  decide

/-- C6 (amended). When every claimed part exists and every non-last part
meets the 5 MiB minimum, `CompleteMultipartUpload` rejects with
`PartsSizeUnequal` whenever some part other than the last has an on-disk
size different from the first part's size; the last part stays exempt. -/
theorem completeMultipart_partsSizeUnequal_amended (size : CompletePart → Int)
    (p0 : CompletePart) (parts : List CompletePart)
    (hmin : allButLast (fun p => globalMinPartSize ≤ size p) (p0 :: parts))
    (hneq : ¬ allButLast (fun p => size p = size p0) (p0 :: parts)) :
    validateParts (fun p => some (size p)) (p0 :: parts) =
      some CompleteError.partsSizeUnequal := by
  cases parts with
  | nil => exact absurd trivial hneq
  | cons y rest =>
    obtain ⟨hmin0, hminrest⟩ := hmin
    have hs0 : size p0 ≠ -1 := by
      have h5 : globalMinPartSize = 5 * 1024 * 1024 := rfl
      omega
    rw [validateParts, validatePartsGo]
    simp only [if_true]
    rw [if_neg (by simp : ¬ (y :: rest = [])),
      if_neg (not_not_intro (by simpa [isMinAllowedPartSize] using hmin0)),
      if_neg (not_not_intro rfl)]
    exact validatePartsGo_unequal size (y :: rest) (size p0) hs0 hminrest
      (fun hr => hneq ⟨rfl, hr⟩)

/-- Concrete consequence of the amended C6: a 6 MiB middle part among 5 MiB
parts yields `PartsSizeUnequal`. -/
theorem completeMultipart_partsSizeUnequal_amended_witness :
    validateParts (fun p => some (sizeW6 p)) [⟨1, ['a']⟩, ⟨2, ['b']⟩, ⟨3, ['c']⟩] =
      some CompleteError.partsSizeUnequal :=
  completeMultipart_partsSizeUnequal_amended sizeW6 ⟨1, ['a']⟩ [⟨2, ['b']⟩, ⟨3, ['c']⟩]
    ⟨by decide, by decide, trivial⟩
    (fun h => absurd h.2.1 (by decide))

lemma filter_idem {α : Type} (p : α → Bool) (l : List α) :
    (l.filter p).filter p = l.filter p := by
  induction l with
  | nil => rfl
  | cons x xs ih =>
    by_cases hx : p x
    · rw [List.filter_cons_of_pos hx, List.filter_cons_of_pos hx, ih]
    · rw [List.filter_cons_of_neg hx]
      exact ih

/-- C1 (counterexample to the claim as stated). A first abort succeeds,
but a second abort of the same upload id returns `InvalidUploadID`, not
success: the `fs.json` stat fails once the upload-id directory is gone. -/
theorem abortMultipartUpload_not_idempotent :
    (AbortMultipartUpload fsC1 "b" "o" "u").2 = none ∧
    (AbortMultipartUpload (AbortMultipartUpload fsC1 "b" "o" "u").1 "b" "o" "u").2 =
      some (ObjErr.invalidUploadID "u") := by
  decide

/-- C1 (amended). After a successful abort, a second abort of the same
upload id performs no state change but returns `InvalidUploadID` rather than
success: abort-after-abort is a storage no-op whose result is an error. -/
theorem abortMultipartUpload_second_abort (fs : MultipartFS)
    (bucket object uploadID : String)
    (h : (AbortMultipartUpload fs bucket object uploadID).2 = none) :
    (AbortMultipartUpload (AbortMultipartUpload fs bucket object uploadID).1
        bucket object uploadID).2 = some (ObjErr.invalidUploadID uploadID) ∧
    (AbortMultipartUpload (AbortMultipartUpload fs bucket object uploadID).1
        bucket object uploadID).1 =
      (AbortMultipartUpload fs bucket object uploadID).1 := by
  have hb : bucket ∈ fs.buckets := by
    by_contra hb
    rw [AbortMultipartUpload, if_neg hb] at h
    exact absurd h (by simp)
  have hu : (bucket, object, uploadID) ∈ fs.uploads := by
    by_contra hu
    rw [AbortMultipartUpload, if_pos hb, if_neg hu] at h
    exact absurd h (by simp)
  have hres : AbortMultipartUpload fs bucket object uploadID =
      ({ buckets := fs.buckets,
         uploads := fs.uploads.filter (fun k => decide (k ≠ (bucket, object, uploadID))),
         partFiles := fs.partFiles.filter (fun pf => decide (pf.1 ≠ (bucket, object, uploadID))),
         appendMap := fs.appendMap.filter (fun u => decide (u ≠ uploadID)) },
        none) := by
    rw [AbortMultipartUpload, if_pos hb, if_pos hu]
  rw [hres]
  have hmem : (bucket, object, uploadID) ∉
      fs.uploads.filter (fun k => decide (k ≠ (bucket, object, uploadID))) := by
    simp
  constructor
  · rw [AbortMultipartUpload, if_pos hb, if_neg hmem]
  · rw [AbortMultipartUpload, if_pos hb, if_neg hmem]
    rw [filter_idem]

/-- Concrete instance of the amended C1 theorem on `fsC1`. -/
theorem abortMultipartUpload_second_abort_witness :
    (AbortMultipartUpload (AbortMultipartUpload fsC1 "b" "o" "u").1 "b" "o" "u").2 =
      some (ObjErr.invalidUploadID "u") ∧
    (AbortMultipartUpload (AbortMultipartUpload fsC1 "b" "o" "u").1 "b" "o" "u").1 =
      (AbortMultipartUpload fsC1 "b" "o" "u").1 :=
  abortMultipartUpload_second_abort fsC1 "b" "o" "u" (by decide)

/-- C7. When the upload-id's metadata file does not exist at the time of
the call (the bucket existing and the data size being nonnegative, the guards
checked before it), `PutObjectPart` returns `InvalidUploadID` and leaves the
entire state — in particular the part files of the multipart area —
unchanged: the upload-id stat precedes any write. -/
theorem putObjectPart_invalidUploadID (fs : MultipartFS)
    (bucket object uploadID : String) (partID dataSize : Int) (etag : String)
    (hb : bucket ∈ fs.buckets) (hsz : ¬ dataSize < 0)
    (hu : (bucket, object, uploadID) ∉ fs.uploads) :
    PutObjectPart fs bucket object uploadID partID dataSize etag =
      (fs, some (ObjErr.invalidUploadID uploadID)) := by
  rw [PutObjectPart, if_pos hb, if_neg hsz, if_neg hu]

/-- Concrete instance of the C7 theorem on `fsC7`. -/
theorem putObjectPart_invalidUploadID_witness :
    PutObjectPart fsC7 "b" "o" "u" 1 4 "e" = (fsC7, some (ObjErr.invalidUploadID "u")) :=
  putObjectPart_invalidUploadID fsC7 "b" "o" "u" 1 4 "e"
    (by decide) (by decide) (by decide)

lemma mem_removeParam {m : List (nsParam × Nat)} {p : nsParam}
    {e : nsParam × Nat} (h : e ∈ removeParam m p) : e ∈ m :=
  (List.mem_filter.1 h).1

lemma goodMap_removeParam {m : List (nsParam × Nat)} (p : nsParam)
    (h : goodMap m) : goodMap (removeParam m p) :=
  fun e he => h e (mem_removeParam he)

lemma findRef_mem {m : List (nsParam × Nat)} {p : nsParam} {r : Nat}
    (h : findRef m p = some r) : (p, r) ∈ m := by
  induction m with
  | nil => exact absurd h (by rw [findRef]; simp)
  | cons e rest ih =>
    rw [show e = (e.1, e.2) from rfl, findRef] at h
    by_cases hq : e.1 = p
    · rw [if_pos hq] at h
      obtain rfl : e.2 = r := by injection h
      exact hq ▸ List.mem_cons_self _ _
    · rw [if_neg hq] at h
      exact List.mem_cons_of_mem _ (ih h)

lemma goodMap_applyOp {m : List (nsParam × Nat)} (op : NSLockOp)
    (h : goodMap m) : goodMap (applyOp m op) := by
  cases op with
  | acquire p =>
    rw [applyOp, lockIncr]
    cases hf : findRef m p with
    | none =>
      intro e he
      rcases List.mem_cons.1 he with rfl | he
      · exact Nat.zero_lt_one
      · exact h e he
    | some r =>
      intro e he
      rcases List.mem_cons.1 he with rfl | he
      · exact Nat.succ_pos r
      · exact h e (mem_removeParam he)
  | timeout p =>
    rw [applyOp, lockTimeoutDecr]
    cases hf : findRef m p with
    | none => exact h
    | some r =>
      show goodMap (if r - 1 = 0 then removeParam m p else (p, r - 1) :: removeParam m p)
      by_cases hz : r - 1 = 0
      · rw [if_pos hz]
        exact goodMap_removeParam p h
      · rw [if_neg hz]
        intro e he
        rcases List.mem_cons.1 he with rfl | he
        · exact Nat.pos_of_ne_zero hz
        · exact h e (mem_removeParam he)
  | release p =>
    rw [applyOp, unlockOp]
    cases hf : findRef m p with
    | none => exact h
    | some r =>
      show goodMap (if (if r ≠ 0 then r - 1 else r) = 0 then removeParam m p
        else (p, if r ≠ 0 then r - 1 else r) :: removeParam m p)
      by_cases hz : (if r ≠ 0 then r - 1 else r) = 0
      · rw [if_pos hz]
        exact goodMap_removeParam p h
      · rw [if_neg hz]
        intro e he
        rcases List.mem_cons.1 he with rfl | he
        · exact Nat.pos_of_ne_zero hz
        · exact h e (mem_removeParam he)
  | force p => exact goodMap_removeParam p h

lemma goodMap_foldl (ops : List NSLockOp) :
    ∀ m, goodMap m → goodMap (ops.foldl applyOp m) := by
  induction ops with
  | nil => exact fun m h => h
  | cons op rest ih => exact fun m h => ih (applyOp m op) (goodMap_applyOp op h)

/-- C3. In every state reachable by the namespace lock manager from the
empty map — acquires creating the entry on the first acquirer and
incrementing the counter, releases and timed-out acquires decrementing it
and deleting the entry at zero, force-unlock deleting it unconditionally — a
map entry for `(volume, path)` exists if and only if its reference count is
greater than zero. -/
theorem nsLockMap_entry_iff_pos (ops : List NSLockOp) (p : nsParam) :
    (findRef (applyOps ops) p).isSome ↔ 0 < (findRef (applyOps ops) p).getD 0 := by
  have hgood : goodMap (applyOps ops) :=
    goodMap_foldl ops [] (fun e he => absurd he (List.not_mem_nil e))
  cases hf : findRef (applyOps ops) p with
  | none => simp
  | some r =>
    simp only [Option.isSome_some, Option.getD_some, true_iff]
    exact hgood (p, r) (findRef_mem hf)

lemma findRef_removeParam (m : List (nsParam × Nat)) (p : nsParam) :
    findRef (removeParam m p) p = none := by
  induction m with
  | nil => rfl
  | cons e rest ih =>
    obtain ⟨q, r⟩ := e
    rw [removeParam] at ih ⊢
    by_cases he : q = p
    · rw [List.filter_cons_of_neg (by simp [he])]
      exact ih
    · rw [List.filter_cons_of_pos (by simp [he]), findRef, if_neg he]
      exact ih

/-- C8. Calling unlock on a `(volume, path)` whose reference count is
zero, or for which no entry exists, never underflows the counter: with no
entry the map is untouched, with a zero-count entry the guarded decrement is
skipped and the entry is removed, and in both cases the resulting count is
zero — the counter saturates at zero and the operation completes. -/
theorem unlock_saturates (m : List (nsParam × Nat)) (p : nsParam)
    (h : findRef m p = none ∨ findRef m p = some 0) :
    (findRef (unlockOp m p) p).getD 0 = 0 ∧
    (findRef m p = none → unlockOp m p = m) ∧
    (findRef m p = some 0 → unlockOp m p = removeParam m p) := by
  rcases h with h | h
  · have hop : unlockOp m p = m := by rw [unlockOp, h]
    refine ⟨?_, fun _ => hop, fun hc => absurd (h ▸ hc) (by simp)⟩
    rw [hop, h]
    rfl
  · have hop : unlockOp m p = removeParam m p := by
      rw [unlockOp, h]
      rfl
    refine ⟨?_, fun hc => absurd (h ▸ hc) (by simp), fun _ => hop⟩
    rw [hop, findRef_removeParam]
    rfl

/-- Concrete instance of the C8 theorem: a zero-count entry. -/
theorem unlock_saturates_witness :
    (findRef (unlockOp [(nsParam.mk "v" "p", 0)] (nsParam.mk "v" "p"))
        (nsParam.mk "v" "p")).getD 0 = 0 ∧
    (findRef [(nsParam.mk "v" "p", 0)] (nsParam.mk "v" "p") = none →
      unlockOp [(nsParam.mk "v" "p", 0)] (nsParam.mk "v" "p") =
        [(nsParam.mk "v" "p", 0)]) ∧
    (findRef [(nsParam.mk "v" "p", 0)] (nsParam.mk "v" "p") = some 0 →
      unlockOp [(nsParam.mk "v" "p", 0)] (nsParam.mk "v" "p") =
        removeParam [(nsParam.mk "v" "p", 0)] (nsParam.mk "v" "p")) :=
  unlock_saturates [(nsParam.mk "v" "p", 0)] (nsParam.mk "v" "p")
    (Or.inr (by decide))

lemma erroredAfter_zero (stale : Nat → Bool) (outcome : Nat → Nat → Bool) :
    erroredAfter stale outcome 0 = fun _ => false := rfl

lemma erroredAfter_succ (stale : Nat → Bool) (outcome : Nat → Nat → Bool)
    (b i : Nat) :
    erroredAfter stale outcome (b + 1) i =
      (erroredAfter stale outcome b i || (stale i && !outcome b i)) := rfl

lemma healWriteSucceeded_false_iff (stale : Nat → Bool) (outcome : Nat → Nat → Bool)
    (n b : Nat) :
    healWriteSucceeded stale outcome n b (erroredAfter stale outcome b) = false ↔
      ∀ i < n, stale i = true → erroredAfter stale outcome (b + 1) i = true := by
  rw [healWriteSucceeded, List.any_eq_false]
  constructor
  · intro h i hi hs
    have hni := h i (List.mem_range.2 hi)
    rw [erroredAfter_succ]
    cases he : erroredAfter stale outcome b i
    · cases hoc : outcome b i
      · simp [hs, he, hoc]
      · exact absurd (by simp [hs, he, hoc]) hni
    · simp [he]
  · intro h i hmem
    have hi := List.mem_range.1 hmem
    cases hs : stale i
    · simp [hs]
    · have h2 := h i hi hs
      rw [erroredAfter_succ] at h2
      cases he : erroredAfter stale outcome b i
      · rw [he, hs] at h2
        simp only [Bool.false_or, Bool.true_and, Bool.not_eq_true'] at h2
        simp [hs, he, h2]
      · simp [he]

lemma healLoop_none_iff (stale : Nat → Bool) (outcome : Nat → Nat → Bool) (n : Nat) :
    ∀ (k b : Nat),
      healLoop stale outcome n k b (erroredAfter stale outcome b) = none ↔
        ∃ j < k, ∀ i < n, stale i = true →
          erroredAfter stale outcome (b + j + 1) i = true := by
  intro k
  induction k with
  | zero => intro b; simp [healLoop]
  | succ k ih =>
    intro b
    rw [healLoop]
    have harg : (fun i => erroredAfter stale outcome b i || (stale i && !outcome b i)) =
        erroredAfter stale outcome (b + 1) := funext fun i => (erroredAfter_succ stale outcome b i).symm
    rw [harg]
    cases hsucc : healWriteSucceeded stale outcome n b (erroredAfter stale outcome b) with
    | true =>
      rw [if_pos rfl, ih (b + 1)]
      constructor
      · rintro ⟨j, hj, hall⟩
        refine ⟨j + 1, by omega, ?_⟩
        have harith : b + (j + 1) + 1 = b + 1 + j + 1 := by omega
        rw [harith]
        exact hall
      · rintro ⟨j, hj, hall⟩
        cases j with
        | zero =>
          have hfalse := (healWriteSucceeded_false_iff stale outcome n b).2
            (by simpa using hall)
          rw [hsucc] at hfalse
          exact absurd hfalse (by simp)
        | succ j =>
          refine ⟨j, by omega, ?_⟩
          have harith : b + 1 + j + 1 = b + (j + 1) + 1 := by omega
          rw [harith]
          exact hall
    | false =>
      rw [if_neg (by simp)]
      refine iff_of_true rfl ⟨0, by omega, ?_⟩
      simpa using (healWriteSucceeded_false_iff stale outcome n b).1 hsucc

lemma healLoop_some (stale : Nat → Bool) (outcome : Nat → Nat → Bool) (n : Nat) :
    ∀ (k b : Nat) (e : Nat → Bool),
      healLoop stale outcome n k b (erroredAfter stale outcome b) = some e →
      e = erroredAfter stale outcome (b + k) := by
  intro k
  induction k with
  | zero =>
    intro b e h
    rw [healLoop] at h
    exact (Option.some.inj h).symm
  | succ k ih =>
    intro b e h
    rw [healLoop] at h
    have harg : (fun i => erroredAfter stale outcome b i || (stale i && !outcome b i)) =
        erroredAfter stale outcome (b + 1) := funext fun i => (erroredAfter_succ stale outcome b i).symm
    rw [harg] at h
    cases hsucc : healWriteSucceeded stale outcome n b (erroredAfter stale outcome b) with
    | true =>
      rw [if_pos hsucc] at h
      have he := ih (b + 1) e h
      rw [show b + 1 + k = b + (k + 1) from by omega] at he
      exact he
    | false =>
      rw [if_neg (by simp [hsucc])] at h
      exact absurd h (by simp)

lemma erroredAfter_eq_true_iff (stale : Nat → Bool) (outcome : Nat → Nat → Bool) :
    ∀ (k i : Nat), erroredAfter stale outcome k i = true ↔
      ∃ b < k, stale i = true ∧ outcome b i = false := by
  intro k
  induction k with
  | zero => intro i; simp [erroredAfter]
  | succ k ih =>
    intro i
    rw [erroredAfter_succ, Bool.or_eq_true, ih i, Bool.and_eq_true, Bool.not_eq_true']
    constructor
    · rintro (⟨b, hb, h1, h2⟩ | ⟨h1, h2⟩)
      · exact ⟨b, by omega, h1, h2⟩
      · exact ⟨k, by omega, h1, h2⟩
    · rintro ⟨b, hb, h1, h2⟩
      by_cases hbk : b = k
      · exact Or.inr ⟨h1, hbk ▸ h2⟩
      · exact Or.inl ⟨b, by omega, h1, h2⟩

/-- C2. `HealFile` returns an error exactly when, for some block, every
non-nil stale disk has accumulated a write error by the end of that block;
otherwise it succeeds, and on success the returned `Checksums` has a fresh
checksum exactly at the indices of the stale disks whose appends all
succeeded, and nothing at every other index. -/
theorem healFile_characterization (stale : Nat → Bool) (outcome : Nat → Nat → Bool)
    (n numBlocks : Nat) :
    (HealFile stale outcome n numBlocks = none ↔
      ∃ b < numBlocks, ∀ i < n, stale i = true →
        erroredAfter stale outcome (b + 1) i = true)
    ∧ (∀ cs, HealFile stale outcome n numBlocks = some cs →
        ∀ i < n, (cs.getD i false = true ↔
          (stale i = true ∧ ∀ b < numBlocks, outcome b i = true))) := by
  constructor
  · rw [HealFile, Option.map_eq_none']
    have h1 := healLoop_none_iff stale outcome n numBlocks 0
    simp only [Nat.zero_add] at h1
    exact h1
  · intro cs hsome i hi
    rw [HealFile, Option.map_eq_some'] at hsome
    obtain ⟨e, he, hcs⟩ := hsome
    have hee : e = erroredAfter stale outcome numBlocks := by
      have := healLoop_some stale outcome n numBlocks 0 e he
      simpa using this
    have hget : cs.getD i false = (stale i && !e i) := by
      rw [← hcs]
      rw [List.getD_eq_getElem _ _ (by simpa using hi)]
      rw [List.getElem_map, List.getElem_range]
    rw [hget, hee, Bool.and_eq_true, Bool.not_eq_true']
    have hiff := erroredAfter_eq_true_iff stale outcome numBlocks i
    constructor
    · rintro ⟨h1, h2⟩
      refine ⟨h1, fun b hb => ?_⟩
      by_contra hoc
      rw [Bool.not_eq_true] at hoc
      have : erroredAfter stale outcome numBlocks i = true := hiff.2 ⟨b, hb, h1, hoc⟩
      rw [h2] at this
      exact absurd this (by simp)
    · rintro ⟨h1, h2⟩
      refine ⟨h1, ?_⟩
      by_contra he2
      rw [Bool.not_eq_false] at he2
      obtain ⟨b, hb, _, hoc⟩ := hiff.1 he2
      rw [h2 b hb] at hoc
      exact absurd hoc (by simp)

/-- Concrete instances of the C2 theorem: a heal that fails at the second
block, and a successful heal whose checksum presence is read back. -/
theorem healFile_characterization_witness :
    HealFile (fun i => decide (i = 0)) (fun b _ => decide (b = 0)) 1 2 = none ∧
    (([true] : List Bool).getD 0 false = true ↔
      ((fun i => decide (i = 0)) 0 = true ∧
        ∀ b < 2, (fun _ _ => true : Nat → Nat → Bool) b 0 = true)) := by
  constructor
  · refine (healFile_characterization (fun i => decide (i = 0))
      (fun b _ => decide (b = 0)) 1 2).1.mpr ⟨1, by omega, ?_⟩
    intro i hi hs
    interval_cases i
    · decide
  · exact (healFile_characterization (fun i => decide (i = 0))
      (fun _ _ => true) 1 2).2 [true] (by decide) 0 (by omega)

lemma ceilFrac_spec {a b : Int} (hb : 0 < b) (_ha : 0 ≤ a) :
    a ≤ ceilFrac a b * b ∧ (ceilFrac a b - 1) * b < a := by
  rw [ceilFrac, if_neg (by omega)]
  have hdm := Int.ediv_add_emod (a + b - 1) b
  have hr0 := Int.emod_nonneg (a + b - 1) (by omega : b ≠ 0)
  have hrb := Int.emod_lt_of_pos (a + b - 1) hb
  constructor
  · nlinarith [hdm, hr0, hrb]
  · nlinarith [hdm, hr0, hrb]

lemma numBlocks_nonneg {size blocksize : Int} (hb : 0 < blocksize) (hs : 0 ≤ size) :
    0 ≤ numBlocks size blocksize := by
  rw [numBlocks, ceilFrac, if_neg (by omega)]
  exact Int.ediv_nonneg (by omega) (by omega)

lemma sum_csize (size blocksize dataBlocks : Int) (hb : 0 < blocksize) (hs : 0 ≤ size) :
    readLen size blocksize dataBlocks =
      ∑ b ∈ Finset.range (numBlocks size blocksize).toNat,
        csize size blocksize dataBlocks (b : Int) := by
  have hnb_nonneg : 0 ≤ numBlocks size blocksize := numBlocks_nonneg hb hs
  cases hm : (numBlocks size blocksize).toNat with
  | zero =>
    have hnb0 : numBlocks size blocksize = 0 := by omega
    have h1 : size ≤ numBlocks size blocksize * blocksize := (ceilFrac_spec hb hs).1
    have hsize0 : size = 0 := by rw [hnb0] at h1; omega
    have hmod : size % blocksize = 0 := by rw [hsize0]; simp
    have hlast : lastChunkSize size blocksize dataBlocks = chunksize blocksize dataBlocks := by
      rw [lastChunkSize, if_neg (by omega)]
    rw [Finset.sum_range_zero, readLen, hnb0, hlast]
    ring
  | succ m' =>
    have hnb : numBlocks size blocksize = (m' : Int) + 1 := by omega
    rw [Finset.sum_range_succ]
    have hlast : csize size blocksize dataBlocks ((m' : Nat) : Int) =
        lastChunkSize size blocksize dataBlocks := by
      rw [csize, if_pos (by omega)]
    have hconst : ∀ b ∈ Finset.range m',
        csize size blocksize dataBlocks (b : Int) = chunksize blocksize dataBlocks := by
      intro b hbmem
      have hblt := Finset.mem_range.1 hbmem
      rw [csize, if_neg (by omega)]
    rw [Finset.sum_congr rfl hconst, Finset.sum_const, Finset.card_range, nsmul_eq_mul]
    rw [hlast, readLen, hnb]
    ring

/-- C9. `HealFile`'s stripe arithmetic: `chunksize` is the ceiling of
`blocksize/N` and `numBlocks` the ceiling of `size/blocksize` (both
characterized by their ceiling bounds); when `size` is not a multiple of
`blocksize` the last chunk size is recomputed as the ceiling of
`(size mod blocksize)/N`, otherwise it equals `chunksize`; the final loop
iteration uses the recomputed size; and the total bytes read per disk,
`readLen = chunksize*(numBlocks-1) + lastChunkSize`, equal the sum of the
per-block chunk sizes. -/
theorem healFile_stripe_arithmetic (size blocksize dataBlocks : Int)
    (hb : 0 < blocksize) (hN : 0 < dataBlocks) (hs : 0 ≤ size) :
    (blocksize ≤ chunksize blocksize dataBlocks * dataBlocks ∧
      (chunksize blocksize dataBlocks - 1) * dataBlocks < blocksize) ∧
    (size ≤ numBlocks size blocksize * blocksize ∧
      (numBlocks size blocksize - 1) * blocksize < size) ∧
    (size % blocksize ≠ 0 →
      lastChunkSize size blocksize dataBlocks = ceilFrac (size % blocksize) dataBlocks ∧
      size % blocksize ≤ lastChunkSize size blocksize dataBlocks * dataBlocks ∧
      (lastChunkSize size blocksize dataBlocks - 1) * dataBlocks < size % blocksize) ∧
    (size % blocksize = 0 →
      lastChunkSize size blocksize dataBlocks = chunksize blocksize dataBlocks) ∧
    csize size blocksize dataBlocks (numBlocks size blocksize - 1) =
      lastChunkSize size blocksize dataBlocks ∧
    readLen size blocksize dataBlocks =
      chunksize blocksize dataBlocks * (numBlocks size blocksize - 1) +
        lastChunkSize size blocksize dataBlocks ∧
    readLen size blocksize dataBlocks =
      ∑ b ∈ Finset.range (numBlocks size blocksize).toNat,
        csize size blocksize dataBlocks (b : Int) := by
  refine ⟨ceilFrac_spec hN (by omega), ceilFrac_spec hb hs, ?_, ?_, ?_, rfl,
    sum_csize size blocksize dataBlocks hb hs⟩
  · intro hmod
    have hml : lastChunkSize size blocksize dataBlocks =
        ceilFrac (size % blocksize) dataBlocks := by
      rw [lastChunkSize, if_pos hmod]
    have hmnn : 0 ≤ size % blocksize := Int.emod_nonneg size (by omega)
    refine ⟨hml, ?_, ?_⟩
    · rw [hml]; exact (ceilFrac_spec hN hmnn).1
    · rw [hml]; exact (ceilFrac_spec hN hmnn).2
  · intro hmod
    rw [lastChunkSize, if_neg (by omega)]
  · rw [csize, if_pos rfl]

/-- Concrete instance of the C9 theorem at `size = 10`, `blocksize = 4`,
`dataBlocks = 3`. -/
theorem healFile_stripe_arithmetic_witness :
    ((4 : Int) ≤ chunksize 4 3 * 3 ∧ (chunksize 4 3 - 1) * 3 < 4) ∧
    ((10 : Int) ≤ numBlocks 10 4 * 4 ∧ (numBlocks 10 4 - 1) * 4 < 10) ∧
    ((10 : Int) % 4 ≠ 0 →
      lastChunkSize 10 4 3 = ceilFrac (10 % 4) 3 ∧
      (10 : Int) % 4 ≤ lastChunkSize 10 4 3 * 3 ∧
      (lastChunkSize 10 4 3 - 1) * 3 < (10 : Int) % 4) ∧
    ((10 : Int) % 4 = 0 → lastChunkSize 10 4 3 = chunksize 4 3) ∧
    csize 10 4 3 (numBlocks 10 4 - 1) = lastChunkSize 10 4 3 ∧
    readLen 10 4 3 = chunksize 4 3 * (numBlocks 10 4 - 1) + lastChunkSize 10 4 3 ∧
    readLen 10 4 3 =
      ∑ b ∈ Finset.range (numBlocks 10 4).toNat, csize 10 4 3 (b : Int) :=
  healFile_stripe_arithmetic 10 4 3 (by norm_num) (by norm_num) (by norm_num)

